import Mathlib

/-!
Verification of the symbolic SCC / attractor library (`biodivine-algo-bdd-scc`).

The development shallowly embeds the algorithmic core of the crate:

* Symbolic coloured-vertex sets (`GraphColoredVertices` in the Rust code) are
  modelled as finite sets of `(vertex, colour)` pairs.
* The symbolic async graph (supplied by the external `biodivine-lib-param-bn`
  library) is modelled from its documented semantics: per variable `v` a state
  can fire `v` (guard `fire`) moving to `flip v` of the state, and all
  transitions are confined to the graph's unit set (`restrict` shrinks it).
* The `Completable` result type of the resumable-computation protocol is
  `ready / working / cancelled`, and the step functions of the crate are
  embedded as pure state-passing functions.  The ambient cancellation flag
  checked by `is_cancelled!()` is modelled as never tripped.
* The BDD-node count `symbolic_size` is an implementation detail of the
  external library; it is modelled as an arbitrary size function `sz` that
  the embedded code receives as a parameter.
-/

set_option linter.unusedVariables false
set_option linter.unusedSectionVars false
set_option linter.unreachableTactic false
set_option linter.unusedTactic false

namespace BddScc

/-- The three-valued result of one step of a resumable computation
(`Completable<T>` with `Incomplete::{Working, Cancelled}` in the code). -/
inductive Completable (T : Type) where
  | ready (value : T)
  | working
  | cancelled (reason : String)
deriving DecidableEq

variable {V C : Type} [DecidableEq V] [DecidableEq C]

/-- A symbolic set of coloured vertices (`GraphColoredVertices`). -/
abbrev SCV (V C : Type) := Finset (V × C)

/-- The symbolic asynchronous graph of a (parameterized) Boolean network,
modelled from the documented semantics of `SymbolicAsyncGraph`:
each variable `v < numVars` induces transitions `s → flip v s` for states
where the guard `fire v colour s` holds, confined to the unit set `unit`. -/
structure SymbolicAsyncGraph (V C : Type) where
  numVars : Nat
  flip : Nat → V → V
  fire : Nat → C → V → Bool
  unit : Finset (V × C)

namespace SymbolicAsyncGraph

/-- The coloured state `p` has a `v`-transition inside the graph
(guard holds, and both endpoints are in the unit set). -/
def hasTransition (G : SymbolicAsyncGraph V C) (v : Nat) (p : V × C) : Prop :=
  G.fire v p.2 p.1 = true ∧ p ∈ G.unit ∧ (G.flip v p.1, p.2) ∈ G.unit

instance (G : SymbolicAsyncGraph V C) (v : Nat) : DecidablePred (G.hasTransition v) := fun p => by
  unfold hasTransition; infer_instance

/-- `var_post(v, S)`: successors of `S` under updates of variable `v`. -/
def var_post (G : SymbolicAsyncGraph V C) (v : Nat) (S : SCV V C) : SCV V C :=
  (S.filter (G.hasTransition v)).image (fun p => (G.flip v p.1, p.2))

/-- `var_post_out(v, S)`: successors of `S` under `v` that are not already in `S`. -/
def var_post_out (G : SymbolicAsyncGraph V C) (v : Nat) (S : SCV V C) : SCV V C :=
  G.var_post v S \ S

/-- `var_pre(v, S)`: predecessors of `S` under updates of variable `v`. -/
def var_pre (G : SymbolicAsyncGraph V C) (v : Nat) (S : SCV V C) : SCV V C :=
  G.unit.filter (fun p => G.hasTransition v p ∧ (G.flip v p.1, p.2) ∈ S)

/-- `var_pre_out(v, S)`: predecessors of `S` under `v` that are not already in `S`. -/
def var_pre_out (G : SymbolicAsyncGraph V C) (v : Nat) (S : SCV V C) : SCV V C :=
  G.var_pre v S \ S

/-- `var_can_post(v, S)`: the subset of `S` that can fire `v`. -/
def var_can_post (G : SymbolicAsyncGraph V C) (v : Nat) (S : SCV V C) : SCV V C :=
  S.filter (G.hasTransition v)

/-- `var_can_post_out(v, S)`: the subset of `S` with a `v`-successor outside `S`. -/
def var_can_post_out (G : SymbolicAsyncGraph V C) (v : Nat) (S : SCV V C) : SCV V C :=
  S.filter (fun p => G.hasTransition v p ∧ (G.flip v p.1, p.2) ∉ S)

/-- `var_can_post_within(v, S)`: the subset of `S` with a `v`-successor inside `S`. -/
def var_can_post_within (G : SymbolicAsyncGraph V C) (v : Nat) (S : SCV V C) : SCV V C :=
  S.filter (fun p => G.hasTransition v p ∧ (G.flip v p.1, p.2) ∈ S)

/-- `var_can_pre_out(v, S)`: the subset of `S` with a `v`-predecessor outside `S`. -/
def var_can_pre_out (G : SymbolicAsyncGraph V C) (v : Nat) (S : SCV V C) : SCV V C :=
  S.filter (fun p => ∃ q ∈ G.unit, q ∉ S ∧ G.hasTransition v q ∧ (G.flip v q.1, q.2) = p)

/-- `var_can_pre_within(v, S)`: the subset of `S` with a `v`-predecessor inside `S`. -/
def var_can_pre_within (G : SymbolicAsyncGraph V C) (v : Nat) (S : SCV V C) : SCV V C :=
  S.filter (fun p => ∃ q ∈ S, G.hasTransition v q ∧ (G.flip v q.1, q.2) = p)

/-- Global `post(S)`: all one-step successors of `S`. -/
def post (G : SymbolicAsyncGraph V C) (S : SCV V C) : SCV V C :=
  (Finset.range G.numVars).biUnion (fun v => G.var_post v S)

/-- Global `pre(S)`: all one-step predecessors of `S`. -/
def pre (G : SymbolicAsyncGraph V C) (S : SCV V C) : SCV V C :=
  (Finset.range G.numVars).biUnion (fun v => G.var_pre v S)

/-- `graph.restrict(S)`: the same graph with transitions confined to `S`. -/
def restrict (G : SymbolicAsyncGraph V C) (S : SCV V C) : SymbolicAsyncGraph V C :=
  { G with unit := G.unit ∩ S }

/-- `mk_empty_colored_vertices`. -/
def mk_empty_colored_vertices (G : SymbolicAsyncGraph V C) : SCV V C := ∅

end SymbolicAsyncGraph

/-- Projection of an SCV to its colour set (`colors()`). -/
def colorsOf (S : SCV V C) : Finset C := S.image Prod.snd

/-- `intersect_colors`: keep only the pairs whose colour is in `cols`. -/
def intersect_colors (S : SCV V C) (cols : Finset C) : SCV V C :=
  S.filter (fun p => p.2 ∈ cols)

/-- `minus_colors`: drop all pairs whose colour is in `cols`. -/
def minus_colors (S : SCV V C) (cols : Finset C) : SCV V C :=
  S.filter (fun p => p.2 ∉ cols)

/-- `pick_vertex()`: a canonical single vertex of the set (with the colours
under which that vertex is present), empty for the empty set. -/
def pick_vertex [LinearOrder V] (S : SCV V C) : SCV V C :=
  if h : S.Nonempty then
    S.filter (fun p => p.1 = (S.image Prod.fst).min' (h.image Prod.fst))
  else ∅

/-- `ReachabilityConfig`.  The two budget caps are used by
`IterativeUnion::step` / `IterativeSubtraction::step` (`context.max_iterations`
and `context.max_symbolic_size`); the struct definition carrying them is not
part of the sources, so those two fields are modelled from the spec
("max-iterations cap (fails when exceeded), max-symbolic-size cap
(fails when exceeded)"). -/
structure ReachabilityConfig (V C : Type) where
  graph : SymbolicAsyncGraph V C
  active_variables : Finset Nat
  max_iterations : Nat
  max_symbolic_size : Nat

/-- `ReachabilityState`: iteration counter plus the current set. -/
structure ReachabilityState (V C : Type) where
  iteration : Nat
  set : SCV V C
deriving DecidableEq

/-- The initial reachability state built from an initial set
(`From<GraphColoredVertices> for ReachabilityState`). -/
def ReachabilityState.fromSet (S : SCV V C) : ReachabilityState V C :=
  { iteration := 0, set := S }

/-- Iteration order of `context.active_variables.iter().rev()`:
the configured variables in descending id order (the strictly descending
enumeration of the set). -/
def varsDesc (vs : Finset Nat) : List Nat :=
  ((List.range (vs.sup id + 1)).filter (· ∈ vs)).reverse

/-- Saturation helper: the first non-empty value of `f` along the list,
or the empty set if every value is empty. -/
def firstNonempty (f : Nat → SCV V C) : List Nat → SCV V C
  | [] => ∅
  | v :: vs => if f v ≠ ∅ then f v else firstNonempty f vs

/-- `SaturationSuccessors::step`: first non-empty `var_post_out` in
descending variable order. -/
def SaturationSuccessors.step (context : ReachabilityConfig V C) (state : SCV V C) : SCV V C :=
  firstNonempty (fun v => context.graph.var_post_out v state) (varsDesc context.active_variables)

/-- `SaturationPredecessors::step`: first non-empty `var_pre_out` in
descending variable order. -/
def SaturationPredecessors.step (context : ReachabilityConfig V C) (state : SCV V C) : SCV V C :=
  firstNonempty (fun v => context.graph.var_pre_out v state) (varsDesc context.active_variables)

/-- `BfsSuccessors::step`: union of `var_post_out` over all configured
variables (in descending order). -/
def BfsSuccessors.step (context : ReachabilityConfig V C) (state : SCV V C) : SCV V C :=
  (varsDesc context.active_variables).foldl
    (fun post v =>
      let var_successors := context.graph.var_post_out v state
      if var_successors ≠ ∅ then post ∪ var_successors else post)
    ∅

/-- `BfsPredecessors::step`. -/
def BfsPredecessors.step (context : ReachabilityConfig V C) (state : SCV V C) : SCV V C :=
  (varsDesc context.active_variables).foldl
    (fun pre v =>
      let var_predecessors := context.graph.var_pre_out v state
      if var_predecessors ≠ ∅ then pre ∪ var_predecessors else pre)
    ∅

/-- `HasSuccessorSaturation::step` (forward-trap reduction): first non-empty
`var_can_post_out` in descending variable order. -/
def HasSuccessorSaturation.step (context : ReachabilityConfig V C) (state : SCV V C) : SCV V C :=
  firstNonempty (fun v => context.graph.var_can_post_out v state) (varsDesc context.active_variables)

/-- `HasPredecessorSaturation::step` (backward-trap reduction). -/
def HasPredecessorSaturation.step (context : ReachabilityConfig V C) (state : SCV V C) : SCV V C :=
  firstNonempty (fun v => context.graph.var_can_pre_out v state) (varsDesc context.active_variables)

/-- `RelativeSinks::step`: states of `state` with no successor within `state`
(computed by inversion, as in the code). -/
def RelativeSinks.step (context : ReachabilityConfig V C) (state : SCV V C) : SCV V C :=
  state \
    (varsDesc context.active_variables).foldl
      (fun has_successor v =>
        let var_successor := context.graph.var_can_post_within v state
        if ¬ var_successor ⊆ has_successor then has_successor ∪ var_successor
        else has_successor)
      ∅

/-- `RelativeSources::step`: states of `state` with no predecessor within `state`. -/
def RelativeSources.step (context : ReachabilityConfig V C) (state : SCV V C) : SCV V C :=
  state \
    (varsDesc context.active_variables).foldl
      (fun has_predecessor v =>
        let var_predecessor := context.graph.var_can_pre_within v state
        if ¬ var_predecessor ⊆ has_predecessor then has_predecessor ∪ var_predecessor
        else has_predecessor)
      ∅

/-- `RelativeSinksAndSources::step`: sources first, sinks as a fallback. -/
def RelativeSinksAndSources.step (context : ReachabilityConfig V C) (state : SCV V C) : SCV V C :=
  let sources := RelativeSources.step context state
  if sources ≠ ∅ then sources else RelativeSinks.step context state

/-- `IterativeUnion::step`, parameterized by the symbolic-size function `sz`
and the inner reachability-step operator `op`.  Returns the `Completable`
result together with the updated state. -/
def IterativeUnion.step (sz : SCV V C → Nat)
    (op : ReachabilityConfig V C → SCV V C → SCV V C)
    (context : ReachabilityConfig V C) (state : ReachabilityState V C) :
    Completable (SCV V C) × ReachabilityState V C :=
  if state.iteration ≥ context.max_iterations then
    (.cancelled "ReachabilityConfig::max_iterations", state)
  else
    let state1 : ReachabilityState V C := { state with iteration := state.iteration + 1 }
    let to_union := op context state1.set
    if to_union = ∅ then
      (.ready state1.set, state1)
    else
      let state2 : ReachabilityState V C := { state1 with set := state1.set ∪ to_union }
      if sz state2.set > context.max_symbolic_size then
        (.cancelled "ReachabilityConfig::max_symbolic_size", state2)
      else
        (.working, state2)

/-- `IterativeSubtraction::step`:  like `IterativeUnion::step`, but the inner
operator's result is removed from the current set. -/
def IterativeSubtraction.step (sz : SCV V C → Nat)
    (op : ReachabilityConfig V C → SCV V C → SCV V C)
    (context : ReachabilityConfig V C) (state : ReachabilityState V C) :
    Completable (SCV V C) × ReachabilityState V C :=
  if state.iteration ≥ context.max_iterations then
    (.cancelled "ReachabilityConfig::max_iterations", state)
  else
    let state1 : ReachabilityState V C := { state with iteration := state.iteration + 1 }
    let to_remove := op context state1.set
    if to_remove = ∅ then
      (.ready state1.set, state1)
    else
      let state2 : ReachabilityState V C := { state1 with set := state1.set \ to_remove }
      if sz state2.set > context.max_symbolic_size then
        (.cancelled "ReachabilityConfig::max_symbolic_size", state2)
      else
        (.working, state2)

/-- Driving a computation step to completion (the `compute` loop of the
protocol), with explicit fuel; `working` is returned when the fuel runs out
before the computation settles. -/
def computationLoop
    (stepFn : ReachabilityState V C → Completable (SCV V C) × ReachabilityState V C) :
    Nat → ReachabilityState V C → Completable (SCV V C)
  | 0, _ => .working
  | fuel + 1, st =>
    match stepFn st with
    | (.ready out, _) => .ready out
    | (.working, st') => computationLoop stepFn fuel st'
    | (.cancelled r, _) => .cancelled r

/-! ### Helper lemmas about the step operators -/

lemma mem_varsDesc {vs : Finset Nat} {v : Nat} : v ∈ varsDesc vs ↔ v ∈ vs := by
  simp only [varsDesc, List.mem_reverse, List.mem_filter, List.mem_range,
    decide_eq_true_eq]
  exact ⟨fun h => h.2, fun h => ⟨Nat.lt_succ_of_le (Finset.le_sup (f := id) h), h⟩⟩

lemma varsDesc_pairwise (vs : Finset Nat) : (varsDesc vs).Pairwise (· > ·) := by
  rw [varsDesc, List.pairwise_reverse]
  exact (List.pairwise_lt_range _).filter _

lemma firstNonempty_empty (f : Nat → SCV V C) (l : List Nat)
    (h : firstNonempty f l = ∅) : ∀ v ∈ l, f v = ∅ := by
  induction l with
  | nil => intro v hv; simp at hv
  | cons v vs ih =>
    intro w hw
    by_cases hv : f v = ∅
    · rcases List.mem_cons.mp hw with rfl | hw'
      · exact hv
      · exact ih (by simpa [firstNonempty, hv] using h) w hw'
    · rw [firstNonempty, if_pos hv] at h
      exact absurd h hv

lemma firstNonempty_all_empty (f : Nat → SCV V C) (l : List Nat)
    (h : ∀ v ∈ l, f v = ∅) : firstNonempty f l = ∅ := by
  induction l with
  | nil => rfl
  | cons v vs ih =>
    rw [firstNonempty, if_neg (fun hc => hc (h v (List.mem_cons_self v vs)))]
    exact ih (fun w hw => h w (List.mem_cons_of_mem v hw))

lemma firstNonempty_spec (f : Nat → SCV V C) (l : List Nat) (hl : l.Pairwise (· > ·)) :
    (firstNonempty f l = ∅ ∧ ∀ v ∈ l, f v = ∅) ∨
    (∃ v ∈ l, f v ≠ ∅ ∧ firstNonempty f l = f v ∧ ∀ w ∈ l, v < w → f w = ∅) := by
  induction l with
  | nil => left; exact ⟨rfl, by simp⟩
  | cons v vs ih =>
    have hgt : ∀ w ∈ vs, v > w := (List.pairwise_cons.mp hl).1
    have hl' : vs.Pairwise (· > ·) := (List.pairwise_cons.mp hl).2
    by_cases hv : f v = ∅
    · rcases ih hl' with ⟨h1, h2⟩ | ⟨w, hw, hne, heq, hmax⟩
      · left
        refine ⟨?_, ?_⟩
        · rw [firstNonempty, if_neg (fun hc => hc hv)]; exact h1
        · intro w hw
          rcases List.mem_cons.mp hw with rfl | hw'
          exacts [hv, h2 w hw']
      · right
        refine ⟨w, List.mem_cons_of_mem v hw, hne, ?_, ?_⟩
        · rw [firstNonempty, if_neg (fun hc => hc hv)]; exact heq
        · intro u hu hlt
          rcases List.mem_cons.mp hu with rfl | hu'
          exacts [hv, hmax u hu' hlt]
    · right
      refine ⟨v, List.mem_cons_self v vs, hv, by rw [firstNonempty, if_pos hv], ?_⟩
      intro w hw hlt
      rcases List.mem_cons.mp hw with rfl | hw'
      · exact absurd hlt (lt_irrefl _)
      · exact absurd hlt (not_lt.mpr (le_of_lt (hgt w hw')))

lemma firstNonempty_varsDesc_spec (f : Nat → SCV V C) (vs : Finset Nat) :
    (firstNonempty f (varsDesc vs) = ∅ ∧ ∀ v ∈ vs, f v = ∅) ∨
    (∃ v ∈ vs, f v ≠ ∅ ∧ firstNonempty f (varsDesc vs) = f v ∧
      ∀ w ∈ vs, v < w → f w = ∅) := by
  rcases firstNonempty_spec f (varsDesc vs) (varsDesc_pairwise vs) with ⟨h1, h2⟩ | ⟨v, hv, h⟩
  · exact Or.inl ⟨h1, fun v hv => h2 v (mem_varsDesc.mpr hv)⟩
  · exact Or.inr ⟨v, mem_varsDesc.mp hv, h.1, h.2.1,
      fun w hw => h.2.2 w (mem_varsDesc.mpr hw)⟩

lemma foldl_union_empty (f : Nat → SCV V C) (l : List Nat) (a : SCV V C)
    (h : l.foldl (fun acc v => if f v ≠ ∅ then acc ∪ f v else acc) a = ∅) :
    a = ∅ ∧ ∀ v ∈ l, f v = ∅ := by
  induction l generalizing a with
  | nil => exact ⟨h, by simp⟩
  | cons v vs ih =>
    rw [List.foldl_cons] at h
    by_cases hv : f v = ∅
    · rw [if_neg (fun hc => hc hv)] at h
      obtain ⟨ha, hall⟩ := ih _ h
      refine ⟨ha, fun w hw => ?_⟩
      rcases List.mem_cons.mp hw with rfl | hw'
      exacts [hv, hall w hw']
    · rw [if_pos hv] at h
      obtain ⟨ha, hall⟩ := ih _ h
      exact absurd (Finset.union_eq_empty.mp ha).2 hv

lemma foldl_union_all_empty (f : Nat → SCV V C) (l : List Nat) (a : SCV V C)
    (h : ∀ v ∈ l, f v = ∅) :
    l.foldl (fun acc v => if f v ≠ ∅ then acc ∪ f v else acc) a = a := by
  induction l generalizing a with
  | nil => rfl
  | cons v vs ih =>
    rw [List.foldl_cons, if_neg (fun hc => hc (h v (List.mem_cons_self v vs)))]
    exact ih _ (fun w hw => h w (List.mem_cons_of_mem v hw))

lemma var_post_empty (G : SymbolicAsyncGraph V C) (v : Nat) : G.var_post v ∅ = ∅ := by
  simp [SymbolicAsyncGraph.var_post]

lemma var_post_out_empty (G : SymbolicAsyncGraph V C) (v : Nat) : G.var_post_out v ∅ = ∅ := by
  simp [SymbolicAsyncGraph.var_post_out, var_post_empty]

lemma var_pre_empty (G : SymbolicAsyncGraph V C) (v : Nat) : G.var_pre v ∅ = ∅ := by
  simp [SymbolicAsyncGraph.var_pre]

lemma var_pre_out_empty (G : SymbolicAsyncGraph V C) (v : Nat) : G.var_pre_out v ∅ = ∅ := by
  simp [SymbolicAsyncGraph.var_pre_out, var_pre_empty]

lemma var_can_post_out_empty (G : SymbolicAsyncGraph V C) (v : Nat) :
    G.var_can_post_out v ∅ = ∅ := by
  simp [SymbolicAsyncGraph.var_can_post_out]

lemma var_can_pre_out_empty (G : SymbolicAsyncGraph V C) (v : Nat) :
    G.var_can_pre_out v ∅ = ∅ := by
  simp [SymbolicAsyncGraph.var_can_pre_out]

/-- Inversion for `IterativeUnion::step`: a `ready` result means the inner
operator produced an empty set and the returned value is the current set. -/
lemma IterativeUnion.ready_inv {sz : SCV V C → Nat}
    {op : ReachabilityConfig V C → SCV V C → SCV V C}
    {context : ReachabilityConfig V C} {state : ReachabilityState V C} {R : SCV V C}
    (h : (IterativeUnion.step sz op context state).1 = .ready R) :
    op context state.set = ∅ ∧ R = state.set := by
  by_cases h1 : state.iteration ≥ context.max_iterations
  · rw [IterativeUnion.step, if_pos h1] at h
    exact absurd h (by simp)
  · rw [IterativeUnion.step, if_neg h1] at h
    by_cases h2 : op context state.set = ∅
    · simp only [h2, if_pos] at h
      refine ⟨h2, ?_⟩
      simpa using h.symm
    · simp only [h2, if_neg, ite_false] at h
      by_cases h3 : sz (state.set ∪ op context state.set) > context.max_symbolic_size
      · rw [if_pos h3] at h; exact absurd h (by simp)
      · rw [if_neg h3] at h; exact absurd h (by simp)

lemma saturationSuccessors_step_empty (context : ReachabilityConfig V C) :
    SaturationSuccessors.step context ∅ = ∅ :=
  firstNonempty_all_empty _ _ (fun v _ => var_post_out_empty _ v)

lemma saturationPredecessors_step_empty (context : ReachabilityConfig V C) :
    SaturationPredecessors.step context ∅ = ∅ :=
  firstNonempty_all_empty _ _ (fun v _ => var_pre_out_empty _ v)

lemma bfsSuccessors_step_empty (context : ReachabilityConfig V C) :
    BfsSuccessors.step context ∅ = ∅ :=
  foldl_union_all_empty _ _ _ (fun v _ => var_post_out_empty _ v)

lemma bfsPredecessors_step_empty (context : ReachabilityConfig V C) :
    BfsPredecessors.step context ∅ = ∅ :=
  foldl_union_all_empty _ _ _ (fun v _ => var_pre_out_empty _ v)

lemma hasSuccessorSaturation_step_empty (context : ReachabilityConfig V C) :
    HasSuccessorSaturation.step context ∅ = ∅ :=
  firstNonempty_all_empty _ _ (fun v _ => var_can_post_out_empty _ v)

lemma hasPredecessorSaturation_step_empty (context : ReachabilityConfig V C) :
    HasPredecessorSaturation.step context ∅ = ∅ :=
  firstNonempty_all_empty _ _ (fun v _ => var_can_pre_out_empty _ v)

lemma relativeSinks_step_empty (context : ReachabilityConfig V C) :
    RelativeSinks.step context ∅ = ∅ := by
  simp [RelativeSinks.step]

lemma relativeSources_step_empty (context : ReachabilityConfig V C) :
    RelativeSources.step context ∅ = ∅ := by
  simp [RelativeSources.step]

lemma relativeSinksAndSources_step_empty (context : ReachabilityConfig V C) :
    RelativeSinksAndSources.step context ∅ = ∅ := by
  rw [RelativeSinksAndSources.step, relativeSources_step_empty]
  simpa using relativeSinks_step_empty context

/-- On the empty initial set, the first `IterativeUnion` step already
completes with the empty set (when at least one iteration is allowed). -/
lemma iterativeUnion_step_on_empty (sz : SCV V C → Nat)
    (op : ReachabilityConfig V C → SCV V C → SCV V C)
    (context : ReachabilityConfig V C)
    (hop : op context ∅ = ∅) (hcap : 1 ≤ context.max_iterations) :
    IterativeUnion.step sz op context (ReachabilityState.fromSet ∅) =
      (.ready ∅, { iteration := 1, set := ∅ }) := by
  have h0 : ¬ ((ReachabilityState.fromSet (∅ : SCV V C)).iteration ≥ context.max_iterations) := by
    simp only [ReachabilityState.fromSet]; omega
  rw [IterativeUnion.step, if_neg h0]
  simp [ReachabilityState.fromSet, hop]

lemma iterativeSubtraction_step_on_empty (sz : SCV V C → Nat)
    (op : ReachabilityConfig V C → SCV V C → SCV V C)
    (context : ReachabilityConfig V C)
    (hop : op context ∅ = ∅) (hcap : 1 ≤ context.max_iterations) :
    IterativeSubtraction.step sz op context (ReachabilityState.fromSet ∅) =
      (.ready ∅, { iteration := 1, set := ∅ }) := by
  have h0 : ¬ ((ReachabilityState.fromSet (∅ : SCV V C)).iteration ≥ context.max_iterations) := by
    simp only [ReachabilityState.fromSet]; omega
  rw [IterativeSubtraction.step, if_neg h0]
  simp [ReachabilityState.fromSet, hop]

lemma computationLoop_on_empty
    (stepFn : ReachabilityState V C → Completable (SCV V C) × ReachabilityState V C)
    (hstep : stepFn (ReachabilityState.fromSet ∅) = (.ready ∅, { iteration := 1, set := ∅ }))
    (fuel : Nat) (hfuel : 1 ≤ fuel) :
    computationLoop stepFn fuel (ReachabilityState.fromSet ∅) = .ready ∅ := by
  cases fuel with
  | zero => omega
  | succ k => rw [computationLoop, hstep]

/-! ### Concrete instances used by witnesses and counterexamples

`twoGraph` is a one-variable network over states `{false, true}` with a
single transition `true → false`; `szCard` instantiates the opaque
symbolic-size function with set cardinality. -/

def twoGraph : SymbolicAsyncGraph Bool Bool :=
  { numVars := 1
    flip := fun _ s => !s
    fire := fun _ _ s => s
    unit := Finset.univ }

def szCard : SCV Bool Bool → Nat := Finset.card

def cfgA : ReachabilityConfig Bool Bool :=
  { graph := twoGraph
    active_variables := Finset.range 1
    max_iterations := 10
    max_symbolic_size := 1000 }

def cfgZero : ReachabilityConfig Bool Bool :=
  { cfgA with max_iterations := 0 }

def cfgTinySize : ReachabilityConfig Bool Bool :=
  { cfgA with max_symbolic_size := 0 }

/-! ### C1: budget enforcement in the iterative-union skeleton -/

/-- C1 (amended): for every computation built over the iterative-union
skeleton, a step taken when the iteration counter has already reached the
`max_iterations` cap returns `Cancelled("ReachabilityConfig::max_iterations")`
and leaves the state unchanged; any other step increments the counter, and,
after unioning a non-empty result whose symbolic size exceeds the
`max_symbolic_size` cap, returns
`Cancelled("ReachabilityConfig::max_symbolic_size")`. -/
theorem iterative_union_budget_enforcement (sz : SCV V C → Nat)
    (op : ReachabilityConfig V C → SCV V C → SCV V C)
    (context : ReachabilityConfig V C) (state : ReachabilityState V C) :
    (state.iteration ≥ context.max_iterations →
      IterativeUnion.step sz op context state =
        (.cancelled "ReachabilityConfig::max_iterations", state)) ∧
    (state.iteration < context.max_iterations →
      (IterativeUnion.step sz op context state).2.iteration = state.iteration + 1 ∧
      (op context state.set ≠ ∅ →
        sz (state.set ∪ op context state.set) > context.max_symbolic_size →
        IterativeUnion.step sz op context state =
          (.cancelled "ReachabilityConfig::max_symbolic_size",
            { iteration := state.iteration + 1,
              set := state.set ∪ op context state.set }))) := by
  constructor
  · intro h1
    rw [IterativeUnion.step, if_pos h1]
  · intro h1
    have h1' : ¬ (state.iteration ≥ context.max_iterations) := by omega
    constructor
    · rw [IterativeUnion.step, if_neg h1']
      by_cases h2 : op context state.set = ∅
      · simp [h2]
      · by_cases h3 : sz (state.set ∪ op context state.set) > context.max_symbolic_size
        · simp [h2, h3]
        · simp [h2, h3]
    · intro h2 h3
      rw [IterativeUnion.step, if_neg h1']
      simp [h2, h3]

/-- Witness for C1's amended theorem: all three branches exercised on
concrete configurations. -/
theorem iterative_union_budget_enforcement_witness :
    IterativeUnion.step szCard SaturationSuccessors.step cfgZero
        (ReachabilityState.fromSet ∅) =
      (.cancelled "ReachabilityConfig::max_iterations", ReachabilityState.fromSet ∅) ∧
    (IterativeUnion.step szCard SaturationSuccessors.step cfgA
        (ReachabilityState.fromSet ∅)).2.iteration = 0 + 1 ∧
    IterativeUnion.step szCard (fun _ _ => {(true, true)}) cfgTinySize
        (ReachabilityState.fromSet ∅) =
      (.cancelled "ReachabilityConfig::max_symbolic_size",
        { iteration := 0 + 1, set := ∅ ∪ {(true, true)} }) :=
  ⟨(iterative_union_budget_enforcement szCard SaturationSuccessors.step cfgZero
        (ReachabilityState.fromSet ∅)).1 (by decide),
   ((iterative_union_budget_enforcement szCard SaturationSuccessors.step cfgA
        (ReachabilityState.fromSet ∅)).2 (by decide)).1,
   ((iterative_union_budget_enforcement szCard (fun _ _ => {(true, true)}) cfgTinySize
        (ReachabilityState.fromSet ∅)).2 (by decide)).2 (by decide) (by decide)⟩

/-- C1 counterexample to the claim as stated: the cancellation reason is
`"ReachabilityConfig::max_iterations"`, not `"max_iterations"`, and the
cancelled step does not increment the iteration counter. -/
theorem iterative_union_reason_string_counterexample :
    (IterativeUnion.step szCard SaturationSuccessors.step cfgZero
        (ReachabilityState.fromSet ∅)).1 =
      .cancelled "ReachabilityConfig::max_iterations" ∧
    (IterativeUnion.step szCard SaturationSuccessors.step cfgZero
        (ReachabilityState.fromSet ∅)).1 ≠ .cancelled "max_iterations" ∧
    (IterativeUnion.step szCard SaturationSuccessors.step cfgZero
        (ReachabilityState.fromSet ∅)).2.iteration = 0 := by
  refine ⟨?_, ?_, ?_⟩ <;> decide

/-! ### C5: saturation step operators -/

/-- C5: `SaturationSuccessors::step` iterates the configured variables in
descending id order and returns the first non-empty `var_post_out(v, S)`
(equivalently, the value at the greatest variable with a non-empty result,
all greater variables having empty results), or the empty set when every
configured variable yields an empty set; `SaturationPredecessors::step`
behaves dually with `var_pre_out`. -/
theorem saturation_step_first_nonempty (context : ReachabilityConfig V C) (S : SCV V C) :
    ((SaturationSuccessors.step context S = ∅ ∧
        ∀ v ∈ context.active_variables, context.graph.var_post_out v S = ∅) ∨
      (∃ v ∈ context.active_variables, context.graph.var_post_out v S ≠ ∅ ∧
        SaturationSuccessors.step context S = context.graph.var_post_out v S ∧
        ∀ w ∈ context.active_variables, v < w → context.graph.var_post_out w S = ∅)) ∧
    ((SaturationPredecessors.step context S = ∅ ∧
        ∀ v ∈ context.active_variables, context.graph.var_pre_out v S = ∅) ∨
      (∃ v ∈ context.active_variables, context.graph.var_pre_out v S ≠ ∅ ∧
        SaturationPredecessors.step context S = context.graph.var_pre_out v S ∧
        ∀ w ∈ context.active_variables, v < w → context.graph.var_pre_out w S = ∅)) :=
  ⟨firstNonempty_varsDesc_spec (fun v => context.graph.var_post_out v S)
      context.active_variables,
   firstNonempty_varsDesc_spec (fun v => context.graph.var_pre_out v S)
      context.active_variables⟩

/-- Witness: the C5 characterization applied at a concrete configuration and set. -/
theorem saturation_step_first_nonempty_witness :
    ((SaturationSuccessors.step cfgA {(true, true)} = ∅ ∧
        ∀ v ∈ cfgA.active_variables, cfgA.graph.var_post_out v {(true, true)} = ∅) ∨
      (∃ v ∈ cfgA.active_variables, cfgA.graph.var_post_out v {(true, true)} ≠ ∅ ∧
        SaturationSuccessors.step cfgA {(true, true)} =
          cfgA.graph.var_post_out v {(true, true)} ∧
        ∀ w ∈ cfgA.active_variables, v < w →
          cfgA.graph.var_post_out w {(true, true)} = ∅)) ∧
    ((SaturationPredecessors.step cfgA {(true, true)} = ∅ ∧
        ∀ v ∈ cfgA.active_variables, cfgA.graph.var_pre_out v {(true, true)} = ∅) ∨
      (∃ v ∈ cfgA.active_variables, cfgA.graph.var_pre_out v {(true, true)} ≠ ∅ ∧
        SaturationPredecessors.step cfgA {(true, true)} =
          cfgA.graph.var_pre_out v {(true, true)} ∧
        ∀ w ∈ cfgA.active_variables, v < w →
          cfgA.graph.var_pre_out w {(true, true)} = ∅)) :=
  saturation_step_first_nonempty cfgA {(true, true)}

/-- A completed run of the driving loop means some step returned `ready`. -/
lemma computationLoop_ready
    (stepFn : ReachabilityState V C → Completable (SCV V C) × ReachabilityState V C)
    (fuel : Nat) (st : ReachabilityState V C) (R : SCV V C)
    (h : computationLoop stepFn fuel st = .ready R) :
    ∃ st', (stepFn st').1 = .ready R := by
  induction fuel generalizing st with
  | zero => simp [computationLoop] at h
  | succ k ih =>
    rw [computationLoop] at h
    rcases hst : stepFn st with ⟨res, st1⟩
    rw [hst] at h
    cases res with
    | ready out =>
      simp only [Completable.ready.injEq] at h
      exact ⟨st, by rw [hst, h]⟩
    | working => exact ih st1 h
    | cancelled r => simp at h

/-! ### C4: closure of completed reachability computations -/

/-- C4: when the active-variable set is all of the graph's variables, a set
`R` returned by a completed forward reachability computation (saturation or
BFS variant of the iterative-union skeleton) is forward-closed
(`post(R) ⊆ R`); the backward variants return backward-closed sets
(`pre(R) ⊆ R`). -/
theorem reachability_closure (sz : SCV V C → Nat) (context : ReachabilityConfig V C)
    (hvars : context.active_variables = Finset.range context.graph.numVars)
    (fuel : Nat) (state : ReachabilityState V C) (R : SCV V C) :
    (computationLoop (IterativeUnion.step sz SaturationSuccessors.step context)
        fuel state = .ready R → context.graph.post R ⊆ R) ∧
    (computationLoop (IterativeUnion.step sz BfsSuccessors.step context)
        fuel state = .ready R → context.graph.post R ⊆ R) ∧
    (computationLoop (IterativeUnion.step sz SaturationPredecessors.step context)
        fuel state = .ready R → context.graph.pre R ⊆ R) ∧
    (computationLoop (IterativeUnion.step sz BfsPredecessors.step context)
        fuel state = .ready R → context.graph.pre R ⊆ R) := by
  have post_of : ∀ R : SCV V C,
      (∀ v ∈ context.active_variables, context.graph.var_post_out v R = ∅) →
      context.graph.post R ⊆ R := by
    intro R hall
    apply Finset.biUnion_subset.mpr
    intro v hv
    have hv' : v ∈ context.active_variables := by rw [hvars]; exact hv
    exact Finset.sdiff_eq_empty_iff_subset.mp (hall v hv')
  have pre_of : ∀ R : SCV V C,
      (∀ v ∈ context.active_variables, context.graph.var_pre_out v R = ∅) →
      context.graph.pre R ⊆ R := by
    intro R hall
    apply Finset.biUnion_subset.mpr
    intro v hv
    have hv' : v ∈ context.active_variables := by rw [hvars]; exact hv
    exact Finset.sdiff_eq_empty_iff_subset.mp (hall v hv')
  refine ⟨?_, ?_, ?_, ?_⟩ <;> intro h
  · obtain ⟨st', hst'⟩ := computationLoop_ready _ _ _ _ h
    obtain ⟨hop, rfl⟩ := IterativeUnion.ready_inv hst'
    exact post_of _ (fun v hv =>
      firstNonempty_empty _ _ hop v (mem_varsDesc.mpr hv))
  · obtain ⟨st', hst'⟩ := computationLoop_ready _ _ _ _ h
    obtain ⟨hop, rfl⟩ := IterativeUnion.ready_inv hst'
    exact post_of _ (fun v hv =>
      (foldl_union_empty _ _ _ hop).2 v (mem_varsDesc.mpr hv))
  · obtain ⟨st', hst'⟩ := computationLoop_ready _ _ _ _ h
    obtain ⟨hop, rfl⟩ := IterativeUnion.ready_inv hst'
    exact pre_of _ (fun v hv =>
      firstNonempty_empty _ _ hop v (mem_varsDesc.mpr hv))
  · obtain ⟨st', hst'⟩ := computationLoop_ready _ _ _ _ h
    obtain ⟨hop, rfl⟩ := IterativeUnion.ready_inv hst'
    exact pre_of _ (fun v hv =>
      (foldl_union_empty _ _ _ hop).2 v (mem_varsDesc.mpr hv))

/-- Witness for C4: on `twoGraph` with the full universe all four
computations complete and closure holds. -/
theorem reachability_closure_witness :
    twoGraph.post Finset.univ ⊆ Finset.univ ∧
    twoGraph.pre Finset.univ ⊆ Finset.univ :=
  ⟨(reachability_closure szCard cfgA (by decide) 3
      (ReachabilityState.fromSet Finset.univ) Finset.univ).1 (by decide),
   (reachability_closure szCard cfgA (by decide) 3
      (ReachabilityState.fromSet Finset.univ) Finset.univ).2.2.1 (by decide)⟩

/-! ### C3: empty input yields empty output -/

/-- C3 (amended): for every graph and configuration whose iteration cap is
at least one, all four reachability computations, both trap computations,
and the three trimming computations, run on the empty set, terminate on the
very first step returning the empty set (for any fuel of the driving loop). -/
theorem empty_input_empty_output (sz : SCV V C → Nat) (context : ReachabilityConfig V C)
    (hcap : 1 ≤ context.max_iterations) (fuel : Nat) (hfuel : 1 ≤ fuel) :
    computationLoop (IterativeUnion.step sz SaturationSuccessors.step context) fuel
        (ReachabilityState.fromSet ∅) = .ready ∅ ∧
    computationLoop (IterativeUnion.step sz BfsSuccessors.step context) fuel
        (ReachabilityState.fromSet ∅) = .ready ∅ ∧
    computationLoop (IterativeUnion.step sz SaturationPredecessors.step context) fuel
        (ReachabilityState.fromSet ∅) = .ready ∅ ∧
    computationLoop (IterativeUnion.step sz BfsPredecessors.step context) fuel
        (ReachabilityState.fromSet ∅) = .ready ∅ ∧
    computationLoop (IterativeSubtraction.step sz HasSuccessorSaturation.step context) fuel
        (ReachabilityState.fromSet ∅) = .ready ∅ ∧
    computationLoop (IterativeSubtraction.step sz HasPredecessorSaturation.step context) fuel
        (ReachabilityState.fromSet ∅) = .ready ∅ ∧
    computationLoop (IterativeSubtraction.step sz RelativeSinks.step context) fuel
        (ReachabilityState.fromSet ∅) = .ready ∅ ∧
    computationLoop (IterativeSubtraction.step sz RelativeSources.step context) fuel
        (ReachabilityState.fromSet ∅) = .ready ∅ ∧
    computationLoop (IterativeSubtraction.step sz RelativeSinksAndSources.step context) fuel
        (ReachabilityState.fromSet ∅) = .ready ∅ := by
  refine ⟨?_, ?_, ?_, ?_, ?_, ?_, ?_, ?_, ?_⟩
  · exact computationLoop_on_empty _
      (iterativeUnion_step_on_empty sz _ context
        (saturationSuccessors_step_empty context) hcap) fuel hfuel
  · exact computationLoop_on_empty _
      (iterativeUnion_step_on_empty sz _ context
        (bfsSuccessors_step_empty context) hcap) fuel hfuel
  · exact computationLoop_on_empty _
      (iterativeUnion_step_on_empty sz _ context
        (saturationPredecessors_step_empty context) hcap) fuel hfuel
  · exact computationLoop_on_empty _
      (iterativeUnion_step_on_empty sz _ context
        (bfsPredecessors_step_empty context) hcap) fuel hfuel
  · exact computationLoop_on_empty _
      (iterativeSubtraction_step_on_empty sz _ context
        (hasSuccessorSaturation_step_empty context) hcap) fuel hfuel
  · exact computationLoop_on_empty _
      (iterativeSubtraction_step_on_empty sz _ context
        (hasPredecessorSaturation_step_empty context) hcap) fuel hfuel
  · exact computationLoop_on_empty _
      (iterativeSubtraction_step_on_empty sz _ context
        (relativeSinks_step_empty context) hcap) fuel hfuel
  · exact computationLoop_on_empty _
      (iterativeSubtraction_step_on_empty sz _ context
        (relativeSources_step_empty context) hcap) fuel hfuel
  · exact computationLoop_on_empty _
      (iterativeSubtraction_step_on_empty sz _ context
        (relativeSinksAndSources_step_empty context) hcap) fuel hfuel

/-- Witness for C3's amended theorem at a concrete configuration. -/
theorem empty_input_empty_output_witness :
    computationLoop (IterativeUnion.step szCard SaturationSuccessors.step cfgA) 3
        (ReachabilityState.fromSet ∅) = .ready ∅ :=
  (empty_input_empty_output szCard cfgA (by decide) 3 (by decide)).1

/-- C3 counterexample to the claim as stated: with a zero iteration cap the
computation on the empty set is cancelled instead of returning the empty set. -/
theorem empty_input_zero_cap_counterexample :
    computationLoop (IterativeUnion.step szCard SaturationSuccessors.step cfgZero) 5
        (ReachabilityState.fromSet ∅) =
      .cancelled "ReachabilityConfig::max_iterations" ∧
    Completable.cancelled "ReachabilityConfig::max_iterations" ≠
      Completable.ready (∅ : SCV Bool Bool) := by
  refine ⟨?_, ?_⟩ <;> decide

/-! ### C2: ITGR task scheduling (`ItgrStep::step`, lines 167-181) -/

/-- The per-variable reduction tasks of ITGR (`Step` in `itgr.rs`). -/
inductive Itgr.Step (V C : Type) [DecidableEq V] [DecidableEq C] where
  | Forward (forward : SCV V C)
  | Extended (forward : SCV V C) (extended_component : SCV V C)
      (universe_forward : ReachabilityConfig V C)
  | ForwardBasin (forward : SCV V C) (basin : SCV V C)
  | BottomBasin (bottom : SCV V C) (basin : SCV V C)

/-- `Step::weight`: the symbolic size of the task's inner candidate set. -/
def Itgr.Step.weight (sz : SCV V C → Nat) : Itgr.Step V C → Nat
  | .Forward forward => sz forward
  | .Extended _ extended_component _ => sz extended_component
  | .ForwardBasin _ basin => sz basin
  | .BottomBasin _ basin => sz basin

/-- `matches!(state.reductions.last(), Some(&(_, Step::BottomBasin(_))))`. -/
def Itgr.lastIsBottomBasin (reductions : List (Nat × Itgr.Step V C)) : Bool :=
  match reductions.getLast? with
  | some (_, .BottomBasin _ _) => true
  | _ => false

/-- `matches!(state.reductions.last(), Some(&(_, Step::ForwardBasin(_))))`. -/
def Itgr.lastIsForwardBasin (reductions : List (Nat × Itgr.Step V C)) : Bool :=
  match reductions.getLast? with
  | some (_, .ForwardBasin _ _) => true
  | _ => false

/-- `sort_by_cached_key(|(_, it)| Reverse(it.weight()))`: a stable sort in
descending weight order. -/
def Itgr.sortTasks (sz : SCV V C → Nat) (reductions : List (Nat × Itgr.Step V C)) :
    List (Nat × Itgr.Step V C) :=
  List.insertionSort
    (fun a b => Itgr.Step.weight sz b.2 ≤ Itgr.Step.weight sz a.2) reductions

/-- The scheduling prologue of `ItgrStep::step`: unless the last task is a
`BottomBasin` or `ForwardBasin`, re-sort the task list. -/
def Itgr.schedule (sz : SCV V C → Nat) (reductions : List (Nat × Itgr.Step V C)) :
    List (Nat × Itgr.Step V C) :=
  if !(Itgr.lastIsBottomBasin reductions) && !(Itgr.lastIsForwardBasin reductions) then
    Itgr.sortTasks sz reductions
  else reductions

/-- The task advanced by the step (`state.reductions.last_mut()` after the
scheduling prologue). -/
def Itgr.currentTask (sz : SCV V C → Nat) (reductions : List (Nat × Itgr.Step V C)) :
    Option (Nat × Itgr.Step V C) :=
  (Itgr.schedule sz reductions).getLast?

lemma getLast_weight_min {α : Type} (w : α → Nat) (l : List α)
    (hs : l.Pairwise (fun a b => w b ≤ w a)) :
    ∀ t ∈ l.getLast?, ∀ u ∈ l, w t ≤ w u := by
  induction l with
  | nil => simp
  | cons x xs ih =>
    intro t ht u hu
    have hhead : ∀ z ∈ xs, w z ≤ w x := (List.pairwise_cons.mp hs).1
    have htail := ih (List.pairwise_cons.mp hs).2
    cases xs with
    | nil =>
      simp only [List.getLast?_singleton, Option.mem_def, Option.some.injEq] at ht
      rcases List.mem_singleton.mp hu with rfl
      rw [← ht]
    | cons y ys =>
      have ht' : t ∈ (y :: ys).getLast? := by
        simpa [List.getLast?_cons_cons] using ht
      rcases List.mem_cons.mp hu with rfl | hu'
      · have htm : t ∈ y :: ys := by
          obtain ⟨hne, rfl⟩ := List.mem_getLast?_eq_getLast ht'
          exact List.getLast_mem hne
        exact hhead t htm
      · exact htail t ht' u hu'

/-- C2 (amended): in the ITGR step the last task of the list is the one
advanced; whenever that last task is not a `BottomBasin` or `ForwardBasin`
task, the list is first re-sorted in descending weight (symbolic size of the
task's inner candidate set) — therefore the task that actually runs is one of
**minimal** weight, not the heaviest. -/
theorem itgr_scheduling (sz : SCV V C → Nat) (reductions : List (Nat × Itgr.Step V C)) :
    ((Itgr.lastIsBottomBasin reductions || Itgr.lastIsForwardBasin reductions) = true →
      Itgr.schedule sz reductions = reductions ∧
      Itgr.currentTask sz reductions = reductions.getLast?) ∧
    ((Itgr.lastIsBottomBasin reductions || Itgr.lastIsForwardBasin reductions) = false →
      (Itgr.schedule sz reductions).Pairwise
        (fun a b => Itgr.Step.weight sz b.2 ≤ Itgr.Step.weight sz a.2) ∧
      (Itgr.schedule sz reductions).Perm reductions ∧
      ∀ t ∈ Itgr.currentTask sz reductions, ∀ u ∈ reductions,
        Itgr.Step.weight sz t.2 ≤ Itgr.Step.weight sz u.2) := by
  have hsched : (Itgr.lastIsBottomBasin reductions || Itgr.lastIsForwardBasin reductions)
      = false →
      Itgr.schedule sz reductions = Itgr.sortTasks sz reductions := by
    intro h
    rw [Itgr.schedule, if_pos]
    rw [← Bool.not_or, h]
    rfl
  constructor
  · intro h
    have : Itgr.schedule sz reductions = reductions := by
      rw [Itgr.schedule, if_neg]
      rw [← Bool.not_or, h]
      simp
    exact ⟨this, by rw [Itgr.currentTask, this]⟩
  · intro h
    haveI : IsTotal (Nat × Itgr.Step V C)
        (fun a b => Itgr.Step.weight sz b.2 ≤ Itgr.Step.weight sz a.2) :=
      ⟨fun a b => le_total _ _⟩
    haveI : IsTrans (Nat × Itgr.Step V C)
        (fun a b => Itgr.Step.weight sz b.2 ≤ Itgr.Step.weight sz a.2) :=
      ⟨fun a b c hab hbc => le_trans hbc hab⟩
    have hsort := List.sorted_insertionSort
      (fun (a b : Nat × Itgr.Step V C) =>
        Itgr.Step.weight sz b.2 ≤ Itgr.Step.weight sz a.2) reductions
    have hperm := List.perm_insertionSort
      (fun (a b : Nat × Itgr.Step V C) =>
        Itgr.Step.weight sz b.2 ≤ Itgr.Step.weight sz a.2) reductions
    refine ⟨?_, ?_, ?_⟩
    · rw [hsched h]; exact hsort
    · rw [hsched h]; exact hperm
    · intro t ht u hu
      have hu' : u ∈ Itgr.schedule sz reductions := by
        rw [hsched h]; exact hperm.mem_iff.mpr hu
      rw [Itgr.currentTask] at ht
      exact getLast_weight_min (fun a => Itgr.Step.weight sz a.2)
        (Itgr.schedule sz reductions) (by rw [hsched h]; exact hsort) t ht u hu'

def taskLight : Nat × Itgr.Step Bool Bool := (0, .Forward {(false, false)})

def taskHeavy : Nat × Itgr.Step Bool Bool :=
  (1, .Forward {(false, false), (true, false)})

def taskBasin : Nat × Itgr.Step Bool Bool := (2, .BottomBasin ∅ ∅)

/-- Witness for C2's amended theorem on concrete task lists (a basin task
keeping priority, and a sorted non-basin list with the lightest task last). -/
theorem itgr_scheduling_witness :
    Itgr.schedule szCard [taskLight, taskBasin] = [taskLight, taskBasin] ∧
    (Itgr.schedule szCard [taskLight, taskHeavy]).Perm [taskLight, taskHeavy] :=
  ⟨((itgr_scheduling szCard [taskLight, taskBasin]).1 (by decide)).1,
   ((itgr_scheduling szCard [taskLight, taskHeavy]).2 (by decide)).2.1⟩

/-- C2 counterexample to the claim as stated: after the descending re-sort
the advanced task (the last of the list) has weight 1, while the heaviest
task (weight 2) ends up first and is *not* the one advanced. -/
theorem itgr_heaviest_not_advanced_counterexample :
    (Itgr.currentTask szCard [taskLight, taskHeavy]).map
        (fun t => (t.1, Itgr.Step.weight szCard t.2)) = some (0, 1) ∧
    ((Itgr.schedule szCard [taskLight, taskHeavy]).head?).map
        (fun t => (t.1, Itgr.Step.weight szCard t.2)) = some (1, 2) := by
  refine ⟨?_, ?_⟩ <;> decide

/-! ### C7: the long-lived filter (`retain_long_lived` in `scc/mod.rs`) -/

/-- The singleton-colour branch of `retain_long_lived`: scan the variables;
if `var_can_post_out(v, set) == set` for some variable, discard the whole
set, otherwise keep it unchanged. -/
def singletonLoop (G : SymbolicAsyncGraph V C) (set : SCV V C) : List Nat → SCV V C
  | [] => set
  | v :: vs =>
    if G.var_can_post_out v set = set then ∅ else singletonLoop G set vs

/-- The multi-colour branch of `retain_long_lived`: intersect the safe
colours with `(set \ var_can_post_out(v, set)).colors()` for each variable,
with an early exit once the safe-colour set is empty; finally keep the pairs
whose colour is safe. -/
def retainLoop (G : SymbolicAsyncGraph V C) (set : SCV V C) (safe_colors : Finset C) :
    List Nat → SCV V C
  | [] => intersect_colors set safe_colors
  | v :: vs =>
    if safe_colors ∩ colorsOf (set \ G.var_can_post_out v set) = ∅ then ∅
    else retainLoop G set (safe_colors ∩ colorsOf (set \ G.var_can_post_out v set)) vs

/-- `retain_long_lived`: per-colour long-lived filtering of a candidate SCC. -/
def retain_long_lived (G : SymbolicAsyncGraph V C) (set : SCV V C) : SCV V C :=
  if (colorsOf set).card = 1 then singletonLoop G set (List.range G.numVars)
  else retainLoop G set (colorsOf set) (List.range G.numVars)

/-- The long-lived filter as the spec describes it: retain exactly the pairs
whose colour is such that, for every variable, at least one state of the set
(under that colour) stays inside the set. -/
def longLivedSpec (G : SymbolicAsyncGraph V C) (set : SCV V C) : SCV V C :=
  set.filter (fun p => ∀ v ∈ Finset.range G.numVars,
    ∃ q ∈ set, q.2 = p.2 ∧ q ∉ G.var_can_post_out v set)

lemma mem_colorsOf {S : SCV V C} {c : C} : c ∈ colorsOf S ↔ ∃ q ∈ S, q.2 = c := by
  simp [colorsOf]

lemma retainLoop_eq (G : SymbolicAsyncGraph V C) (set : SCV V C) (safe_colors : Finset C)
    (l : List Nat) :
    retainLoop G set safe_colors l =
      set.filter (fun p => p.2 ∈ safe_colors ∧
        ∀ v ∈ l, ∃ q ∈ set, q.2 = p.2 ∧ q ∉ G.var_can_post_out v set) := by
  induction l generalizing safe_colors with
  | nil => simp [retainLoop, intersect_colors]
  | cons v vs ih =>
    rw [retainLoop]
    by_cases h : safe_colors ∩ colorsOf (set \ G.var_can_post_out v set) = ∅
    · rw [if_pos h]
      ext p
      simp only [Finset.not_mem_empty, false_iff, Finset.mem_filter, not_and]
      intro hp hsafe hall
      obtain ⟨q, hq, hqc, hqn⟩ := hall v (List.mem_cons_self v vs)
      have : p.2 ∈ safe_colors ∩ colorsOf (set \ G.var_can_post_out v set) :=
        Finset.mem_inter.mpr ⟨hsafe,
          mem_colorsOf.mpr ⟨q, Finset.mem_sdiff.mpr ⟨hq, hqn⟩, hqc⟩⟩
      rw [h] at this
      exact absurd this (Finset.not_mem_empty _)
    · rw [if_neg h, ih]
      apply Finset.filter_congr
      intro p hp
      simp only [Finset.mem_inter, mem_colorsOf, List.mem_cons]
      constructor
      · rintro ⟨⟨hsafe, q, hq, hqc⟩, hall⟩
        refine ⟨hsafe, fun w hw => ?_⟩
        rcases hw with rfl | hw'
        · obtain ⟨hq1, hq2⟩ := Finset.mem_sdiff.mp hq
          exact ⟨q, hq1, hqc, hq2⟩
        · exact hall w hw'
      · rintro ⟨hsafe, hall⟩
        obtain ⟨q, hq, hqc, hqn⟩ := hall v (Or.inl rfl)
        exact ⟨⟨hsafe, q, Finset.mem_sdiff.mpr ⟨hq, hqn⟩, hqc⟩,
          fun w hw => hall w (Or.inr hw)⟩

lemma singletonLoop_eq (G : SymbolicAsyncGraph V C) (set : SCV V C)
    (hsing : ∀ p ∈ set, ∀ q ∈ set, p.2 = q.2) (l : List Nat) :
    singletonLoop G set l =
      set.filter (fun p =>
        ∀ v ∈ l, ∃ q ∈ set, q.2 = p.2 ∧ q ∉ G.var_can_post_out v set) := by
  induction l with
  | nil => simp [singletonLoop]
  | cons v vs ih =>
    rw [singletonLoop]
    by_cases h : G.var_can_post_out v set = set
    · rw [if_pos h]
      ext p
      simp only [Finset.not_mem_empty, false_iff, Finset.mem_filter, not_and]
      intro hp hall
      obtain ⟨q, hq, _, hqn⟩ := hall v (List.mem_cons_self v vs)
      rw [h] at hqn
      exact hqn hq
    · rw [if_neg h, ih]
      apply Finset.filter_congr
      intro p hp
      simp only [List.mem_cons]
      constructor
      · intro hall w hw
        rcases hw with rfl | hw'
        · obtain ⟨q, hq, hqn⟩ :=
            Finset.exists_of_ssubset (HasSubset.Subset.ssubset_of_ne
              (Finset.filter_subset _ set) h)
          exact ⟨q, hq, hsing q hq p hp, hqn⟩
        · exact hall w hw'
      · exact fun hall w hw => hall w (Or.inr hw)

lemma retain_long_lived_eq (G : SymbolicAsyncGraph V C) (set : SCV V C) :
    retain_long_lived G set = longLivedSpec G set := by
  rw [retain_long_lived, longLivedSpec]
  by_cases hsing : (colorsOf set).card = 1
  · rw [if_pos hsing]
    obtain ⟨c, hc⟩ := Finset.card_eq_one.mp hsing
    have hmono : ∀ p ∈ set, ∀ q ∈ set, p.2 = q.2 := by
      intro p hp q hq
      have h1 : p.2 ∈ colorsOf set := mem_colorsOf.mpr ⟨p, hp, rfl⟩
      have h2 : q.2 ∈ colorsOf set := mem_colorsOf.mpr ⟨q, hq, rfl⟩
      rw [hc, Finset.mem_singleton] at h1 h2
      rw [h1, h2]
    rw [singletonLoop_eq G set hmono]
    apply Finset.filter_congr
    intro p hp
    simp [List.mem_range, Finset.mem_range]
  · rw [if_neg hsing, retainLoop_eq]
    apply Finset.filter_congr
    intro p hp
    have hpc : p.2 ∈ colorsOf set := mem_colorsOf.mpr ⟨p, hp, rfl⟩
    simp [hpc, List.mem_range, Finset.mem_range]

lemma retain_long_lived_subset (G : SymbolicAsyncGraph V C) (set : SCV V C) :
    retain_long_lived G set ⊆ set := by
  rw [retain_long_lived_eq, longLivedSpec]
  exact Finset.filter_subset _ set

/-- C7: `retain_long_lived` retains exactly the pairs whose colour is such
that for every variable at least one state of the set (under that colour)
stays inside the set — the safe-colour sets are intersected across variables
(AND); in particular the singleton-colour branch discards the set iff
`var_can_post_out(v, set) = set` for some variable and keeps it unchanged
otherwise. -/
theorem retain_long_lived_characterization (G : SymbolicAsyncGraph V C) (set : SCV V C) :
    retain_long_lived G set = longLivedSpec G set :=
  retain_long_lived_eq G set

/-! ### C9: `Computation::try_compute` (algorithm_trait/computation.rs)

The `Computation` object owns a context, an optional state and an optional
cached output.  `step` mutates the state and returns `Completable<()>`;
`output` is the uninterruptible state-to-output conversion.  The model
passes state explicitly; the `expect` on a missing output (unreachable for
protocol-produced values) is modelled by the `none` result. -/

structure Computation (CONTEXT STATE OUTPUT : Type) where
  context : CONTEXT
  state : Option STATE
  output : Option OUTPUT

/-- `Computation::configure`. -/
def Computation.configure {CONTEXT STATE OUTPUT : Type}
    (context : CONTEXT) (initial_state : STATE) : Computation CONTEXT STATE OUTPUT :=
  { context := context, state := some initial_state, output := none }

/-- `Computation::try_compute`: drive one step if a state is present; when
the step finishes, consume the state into the cached output; afterwards keep
returning the cached output. -/
def Computation.try_compute {CONTEXT STATE OUTPUT : Type}
    (step : CONTEXT → STATE → Completable Unit × STATE)
    (outputFn : CONTEXT → STATE → OUTPUT)
    (c : Computation CONTEXT STATE OUTPUT) :
    Option (Completable OUTPUT) × Computation CONTEXT STATE OUTPUT :=
  match c.state with
  | some st =>
    match step c.context st with
    | (.ready _, st') =>
      (some (.ready (outputFn c.context st')),
        { c with state := none, output := some (outputFn c.context st') })
    | (.working, st') => (some .working, { c with state := some st' })
    | (.cancelled r, st') => (some (.cancelled r), { c with state := some st' })
  | none =>
    match c.output with
    | some o => (some (.ready o), c)
    | none => (none, c)

/-- C9: once the step has returned `Ready` the state is consumed exactly once
by the output conversion and cached; every subsequent `try_compute` returns
`Ok` with the same cached output, leaves the computation unchanged
(idempotence), and does not depend on the step operator (which is therefore
never invoked again). -/
theorem computation_try_compute_caching {CONTEXT STATE OUTPUT : Type}
    (step₁ step₂ : CONTEXT → STATE → Completable Unit × STATE)
    (outputFn : CONTEXT → STATE → OUTPUT)
    (c : Computation CONTEXT STATE OUTPUT) :
    (∀ st, c.state = some st → (step₁ c.context st).1 = .ready () →
      Computation.try_compute step₁ outputFn c =
        (some (.ready (outputFn c.context (step₁ c.context st).2)),
          { c with state := none,
                   output := some (outputFn c.context (step₁ c.context st).2) })) ∧
    (∀ o, c.state = none → c.output = some o →
      Computation.try_compute step₁ outputFn c = (some (.ready o), c) ∧
      Computation.try_compute step₁ outputFn c =
        Computation.try_compute step₂ outputFn c) := by
  constructor
  · intro st hst hready
    rcases hr : step₁ c.context st with ⟨r, st'⟩
    rw [hr] at hready
    simp only at hready
    subst hready
    simp only [Computation.try_compute, hst, hr]
  · intro o hst hout
    simp only [Computation.try_compute, hst, hout]
    exact ⟨trivial, trivial⟩

def stepCounter : Nat → Nat → Completable Unit × Nat :=
  fun context st => if st ≥ context then (.ready (), st) else (.working, st + 1)

def stepDiverge : Nat → Nat → Completable Unit × Nat :=
  fun _ st => (.working, st)

def compDone : Computation Nat Nat Nat :=
  { context := 5, state := none, output := some 42 }

/-- Witness for C9 on a concrete completed computation: the cached output is
returned unchanged, independently of the step operator. -/
theorem computation_try_compute_caching_witness :
    Computation.try_compute stepCounter (fun _ st => st) compDone =
      (some (.ready 42), compDone) ∧
    Computation.try_compute stepCounter (fun _ st => st) compDone =
      Computation.try_compute stepDiverge (fun _ st => st) compDone :=
  (computation_try_compute_caching stepCounter stepDiverge
    (fun _ st => st) compDone).2 42 rfl rfl

/-! ### C6: the Forward phase of the forward-backward SCC generator -/

/-- `TrimSetting` (trimming strategy selected by the configuration). -/
inductive TrimSetting where
  | Both
  | Sources
  | Sinks
  | None
deriving DecidableEq

/-- `SccConfig`: graph, trim setting, long-lived-filter flag. -/
structure SccConfig (V C : Type) where
  graph : SymbolicAsyncGraph V C
  should_trim : TrimSetting
  filter_long_lived : Bool

/-- `filter_scc` (scc/mod.rs): remove per-colour trivial SCCs, then (when
configured) keep only long-lived colours; `none` when nothing remains. -/
def filter_scc [LinearOrder V] (context : SccConfig V C) (scc : SCV V C) :
    Option (SCV V C) :=
  let valid_colors := colorsOf (scc \ pick_vertex scc)
  let non_trivial_scc := intersect_colors scc valid_colors
  if non_trivial_scc = ∅ then none
  else
    let long_lived_scc :=
      if context.filter_long_lived then retain_long_lived context.graph non_trivial_scc
      else non_trivial_scc
    if long_lived_scc = ∅ then none else some long_lived_scc

lemma intersect_colors_subset (S : SCV V C) (cols : Finset C) :
    intersect_colors S cols ⊆ S := Finset.filter_subset _ S

lemma filter_scc_sound [LinearOrder V] (context : SccConfig V C) (scc : SCV V C)
    (A : SCV V C) (h : filter_scc context scc = some A) : A ⊆ scc ∧ A ≠ ∅ := by
  rw [filter_scc] at h
  by_cases h1 : intersect_colors scc (colorsOf (scc \ pick_vertex scc)) = ∅
  · rw [if_pos h1] at h; cases h
  · rw [if_neg h1] at h
    by_cases hll :
        (if context.filter_long_lived then
          retain_long_lived context.graph
            (intersect_colors scc (colorsOf (scc \ pick_vertex scc)))
        else intersect_colors scc (colorsOf (scc \ pick_vertex scc))) = ∅
    · rw [if_pos hll] at h; cases h
    · rw [if_neg hll] at h
      cases h
      refine ⟨?_, hll⟩
      by_cases hf : context.filter_long_lived
      · rw [if_pos hf]
        exact (retain_long_lived_subset _ _).trans (intersect_colors_subset _ _)
      · rw [if_neg hf]
        exact intersect_colors_subset _ _

/-- The phases of the forward-backward generator state machine.  The payload
of the non-idle phases is reduced to the symbolic sets the C6 transition
reads (the boxed sub-computations of the remaining phases are not needed for
the Forward-completion transition). -/
inductive FwdBwdPhase (V C : Type) where
  | Idle
  | Trimming (univSet : SCV V C)
  | Backward (pivot : SCV V C) (univSet : SCV V C)
  | Forward (univSet : SCV V C) (backward : SCV V C)
deriving DecidableEq

/-- The `Step::Forward` arm of `FwdBwdStep::step` after the inner forward
reachability has completed with the set `forward` (`Step3::try_advance`
computes `scc = forward ∩ backward` and filters it; the arm then pushes the
non-empty remainders `B \ F`, `F \ B`, `U \ B \ F` and returns to `Idle`).
The worklist is a stack whose top is the list head. -/
def FwdBwd.forwardPhase [LinearOrder V] (context : SccConfig V C)
    (univSet backward forward : SCV V C) (to_process : List (SCV V C)) :
    Completable (Option (SCV V C)) × List (SCV V C) × FwdBwdPhase V C :=
  let scc := filter_scc context (forward ∩ backward)
  let remaining_backward := backward \ forward
  let remaining_forward := forward \ backward
  let remaining_rest := (univSet \ backward) \ forward
  let tp1 := if remaining_backward ≠ ∅ then remaining_backward :: to_process else to_process
  let tp2 := if remaining_forward ≠ ∅ then remaining_forward :: tp1 else tp1
  let tp3 := if remaining_rest ≠ ∅ then remaining_rest :: tp2 else tp2
  match scc with
  | some scc => (.ready (some scc), tp3, .Idle)
  | none => (.working, tp3, .Idle)

/-- C6: when the Forward phase completes with forward set `F`, backward set
`B` and trimmed universe `U`, the raw SCC is `F ∩ B` (everything emitted is a
non-empty subset of it), exactly the non-empty ones among `B \ F`, `F \ B`
and `U \ (F ∪ B)` are pushed onto the worklist, and the state returns to
`Idle` (emitting the filtered SCC when it is non-empty, else `Working`). -/
theorem fwd_bwd_forward_phase [LinearOrder V] (context : SccConfig V C)
    (univSet backward forward : SCV V C) (to_process : List (SCV V C)) :
    (FwdBwd.forwardPhase context univSet backward forward to_process).2.2 =
      FwdBwdPhase.Idle ∧
    (FwdBwd.forwardPhase context univSet backward forward to_process).2.1 =
      (if univSet \ (forward ∪ backward) ≠ ∅ then [univSet \ (forward ∪ backward)] else []) ++
      (if forward \ backward ≠ ∅ then [forward \ backward] else []) ++
      (if backward \ forward ≠ ∅ then [backward \ forward] else []) ++ to_process ∧
    (∀ A, (FwdBwd.forwardPhase context univSet backward forward to_process).1 =
        .ready (some A) → A ⊆ forward ∩ backward ∧ A ≠ ∅) ∧
    ((FwdBwd.forwardPhase context univSet backward forward to_process).1 = .working ∨
      ∃ A, (FwdBwd.forwardPhase context univSet backward forward to_process).1 =
        .ready (some A)) := by
  have hrest : (univSet \ backward) \ forward = univSet \ (forward ∪ backward) := by
    ext x
    simp only [Finset.mem_sdiff, Finset.mem_union]
    tauto
  refine ⟨?_, ?_, ?_, ?_⟩
  · rw [FwdBwd.forwardPhase]
    cases filter_scc context (forward ∩ backward) <;> rfl
  · rw [FwdBwd.forwardPhase]
    simp only [hrest]
    cases filter_scc context (forward ∩ backward) <;>
      · simp only
        split_ifs <;> simp
  · intro A hA
    rw [FwdBwd.forwardPhase] at hA
    cases hsc : filter_scc context (forward ∩ backward) with
    | none => rw [hsc] at hA; simp at hA
    | some B =>
      rw [hsc] at hA
      simp only [Completable.ready.injEq, Option.some.injEq] at hA
      cases hA
      exact filter_scc_sound context _ A hsc
  · rw [FwdBwd.forwardPhase]
    cases filter_scc context (forward ∩ backward) with
    | none => exact Or.inl rfl
    | some B => exact Or.inr ⟨B, rfl⟩

def sccCfg : SccConfig Bool Bool :=
  { graph := twoGraph, should_trim := .Both, filter_long_lived := false }

def fbSet : SCV Bool Bool := {(false, false), (true, false)}

/-- Witness for C6 at a concrete configuration: the state returns to `Idle`
and the emitted SCC is a non-empty subset of `F ∩ B`. -/
theorem fwd_bwd_forward_phase_witness :
    (FwdBwd.forwardPhase sccCfg Finset.univ fbSet fbSet []).2.2 = FwdBwdPhase.Idle ∧
    fbSet ⊆ fbSet ∩ fbSet ∧ fbSet ≠ ∅ :=
  ⟨(fwd_bwd_forward_phase sccCfg Finset.univ fbSet fbSet []).1,
   (fwd_bwd_forward_phase sccCfg Finset.univ fbSet fbSet []).2.2.1 fbSet (by decide)⟩

/-! ### The Xie-Beerel attractor generator (C8, C10) -/

/-- `AttractorConfig`: graph and active-variable set.  The budget caps
(used when the config is converted into a `ReachabilityConfig`) are
modelled from the spec ("*AttractorConfig*: graph, active-variables,
max-symbolic-size. Converts into a ReachabilityConfig on demand"); the
snapshot's struct does not carry them. -/
structure AttractorConfig (V C : Type) where
  graph : SymbolicAsyncGraph V C
  active_variables : Finset Nat
  max_iterations : Nat
  max_symbolic_size : Nat

/-- `From<&AttractorConfig> for ReachabilityConfig`. -/
def ReachabilityConfig.fromAttractor (a : AttractorConfig V C) : ReachabilityConfig V C :=
  { graph := a.graph
    active_variables := a.active_variables
    max_iterations := a.max_iterations
    max_symbolic_size := a.max_symbolic_size }

/-- `ReachabilityConfig::restrict_state_space`. -/
def ReachabilityConfig.restrict_state_space (cfg : ReachabilityConfig V C)
    (state_space : SCV V C) : ReachabilityConfig V C :=
  { cfg with graph := cfg.graph.restrict state_space }

/-- A `BackwardReachability` computation object: owned context, optional
state, cached output (the protocol's `Computation` applied to the
iterative-union skeleton with `SaturationPredecessors`). -/
structure ReachComputation (V C : Type) where
  context : ReachabilityConfig V C
  state : Option (ReachabilityState V C)
  output : Option (SCV V C)

/-- `BackwardReachability::configure`. -/
def BackwardReachability.configure (cfg : ReachabilityConfig V C) (pivot : SCV V C) :
    ReachComputation V C :=
  { context := cfg, state := some (ReachabilityState.fromSet pivot), output := none }

/-- `try_compute` of the backward-reachability computation: one step of
`IterativeUnion<SaturationPredecessors>`, consuming the state into the
cached output on completion.  (The panic on a missing output, unreachable
for protocol-produced values, is modelled as a `cancelled` marker.) -/
def ReachComputation.try_compute (sz : SCV V C → Nat) (c : ReachComputation V C) :
    Completable (SCV V C) × ReachComputation V C :=
  match c.state with
  | some st =>
    match IterativeUnion.step sz SaturationPredecessors.step c.context st with
    | (.ready out, _) => (.ready out, { c with state := none, output := some out })
    | (.working, st') => (.working, { c with state := some st' })
    | (.cancelled r, st') => (.cancelled r, { c with state := some st' })
  | none =>
    match c.output with
    | some o => (.ready o, c)
    | none => (.cancelled "output missing", c)

/-- The phases of the Xie-Beerel generator (`Step` in `xie_beerel.rs`). -/
inductive XBPhase (V C : Type) where
  | Idle
  | Basin (pivot : SCV V C) (basin : ReachComputation V C)
  | Attractor (basin : SCV V C) (attractor_config : ReachabilityConfig V C)
      (attractor : SCV V C)

/-- `XieBeerelState`: current phase plus the remaining universe. -/
structure XieBeerelState (V C : Type) where
  computing : XBPhase V C
  remaining : SCV V C

/-- `From<GraphColoredVertices> for XieBeerelState`. -/
def XieBeerelState.fromSet (S : SCV V C) : XieBeerelState V C :=
  { computing := .Idle, remaining := S }

/-- `XieBeerelStep::step`. -/
def XieBeerelStep.step [LinearOrder V] (sz : SCV V C → Nat)
    (context : AttractorConfig V C) (state : XieBeerelState V C) :
    Completable (Option (SCV V C)) × XieBeerelState V C :=
  match state.computing with
  | .Idle =>
    if state.remaining = ∅ then (.ready none, state)
    else
      let pivot := pick_vertex state.remaining
      let bwd_config :=
        (ReachabilityConfig.fromAttractor context).restrict_state_space state.remaining
      (.working,
        { state with
            computing := .Basin pivot (BackwardReachability.configure bwd_config pivot) })
  | .Basin pivot sub =>
    match ReachComputation.try_compute sz sub with
    | (.ready basin, _) =>
      (.working,
        { state with
            computing := .Attractor basin (ReachabilityConfig.fromAttractor context) pivot })
    | (.working, sub') => (.working, { state with computing := .Basin pivot sub' })
    | (.cancelled r, sub') => (.cancelled r, { state with computing := .Basin pivot sub' })
  | .Attractor basin attractor_config attractor =>
    let successors := SaturationSuccessors.step attractor_config attractor
    if successors ⊆ attractor then
      if attractor = ∅ then
        (.working, { computing := .Idle, remaining := state.remaining \ basin })
      else
        (.ready (some attractor), { computing := .Idle, remaining := state.remaining \ basin })
    else
      let attractor1 := attractor ∪ successors
      let escaped := colorsOf (successors \ basin)
      let attractor2 := if escaped ≠ ∅ then minus_colors attractor1 escaped else attractor1
      (.working, { state with computing := .Attractor basin attractor_config attractor2 })

/-- The generator driven for `n` steps, collecting the emitted attractors
(stopping at exhaustion or cancellation). -/
def xbRun [LinearOrder V] (sz : SCV V C → Nat) (context : AttractorConfig V C) :
    Nat → XieBeerelState V C → List (SCV V C) × XieBeerelState V C
  | 0, s => ([], s)
  | n + 1, s =>
    match XieBeerelStep.step sz context s with
    | (.ready (some A), s') =>
      let rest := xbRun sz context n s'
      (A :: rest.1, rest.2)
    | (.ready none, s') => ([], s')
    | (.working, s') => xbRun sz context n s'
    | (.cancelled _, s') => ([], s')

/-- The invariant maintained by the Xie-Beerel generator over the initial
universe `U`: the remaining set stays inside `U`; during the basin phase the
inner backward reachability stays confined between the pivot and the
remaining set (its restricted graph's unit set lies inside remaining); during
the attractor phase the candidate attractor lies inside the basin, which lies
inside remaining. -/
def XBInv (context : AttractorConfig V C) (U : SCV V C) (s : XieBeerelState V C) : Prop :=
  s.remaining ⊆ U ∧
  (match s.computing with
   | .Idle => True
   | .Basin pivot sub =>
     (∀ st ∈ sub.state, pivot ⊆ st.set ∧ st.set ⊆ s.remaining) ∧
     (∀ o ∈ sub.output, pivot ⊆ o ∧ o ⊆ s.remaining) ∧
     sub.context.graph.unit ⊆ s.remaining
   | .Attractor basin _ attractor => attractor ⊆ basin ∧ basin ⊆ s.remaining)

lemma pick_vertex_subset [LinearOrder V] (S : SCV V C) : pick_vertex S ⊆ S := by
  rw [pick_vertex]
  split_ifs
  · exact Finset.filter_subset _ S
  · exact Finset.empty_subset S

lemma firstNonempty_subset {f : Nat → SCV V C} {l : List Nat} {T : SCV V C}
    (h : ∀ v ∈ l, f v ⊆ T) : firstNonempty f l ⊆ T := by
  induction l with
  | nil => exact Finset.empty_subset T
  | cons v vs ih =>
    rw [firstNonempty]
    split_ifs
    · exact h v (List.mem_cons_self v vs)
    · exact ih (fun w hw => h w (List.mem_cons_of_mem v hw))

lemma var_pre_out_subset_unit (G : SymbolicAsyncGraph V C) (v : Nat) (S : SCV V C) :
    G.var_pre_out v S ⊆ G.unit :=
  (Finset.sdiff_subset).trans (Finset.filter_subset _ _)

lemma satPred_subset_unit (cfg : ReachabilityConfig V C) (S : SCV V C) :
    SaturationPredecessors.step cfg S ⊆ cfg.graph.unit :=
  firstNonempty_subset (fun v _ => var_pre_out_subset_unit cfg.graph v S)

/-- Bounds for one `IterativeUnion` step: the current set only grows, stays
inside any `R` containing both it and the operator's result, and a `ready`
result returns the current set. -/
lemma IterativeUnion.step_bounds (sz : SCV V C → Nat)
    (op : ReachabilityConfig V C → SCV V C → SCV V C)
    (cfg : ReachabilityConfig V C) (st : ReachabilityState V C) (R : SCV V C)
    (hop : op cfg st.set ⊆ R) (hset : st.set ⊆ R) :
    st.set ⊆ (IterativeUnion.step sz op cfg st).2.set ∧
    (IterativeUnion.step sz op cfg st).2.set ⊆ R ∧
    (∀ out, (IterativeUnion.step sz op cfg st).1 = .ready out → out = st.set) := by
  by_cases h1 : st.iteration ≥ cfg.max_iterations
  · simp only [IterativeUnion.step, if_pos h1]
    exact ⟨subset_rfl, hset, fun out hout => by simp at hout⟩
  · by_cases h2 : op cfg st.set = ∅
    · simp only [IterativeUnion.step, if_neg h1, h2, if_pos]
      exact ⟨subset_rfl, hset, fun out hout => by simpa using hout.symm⟩
    · by_cases h3 : sz (st.set ∪ op cfg st.set) > cfg.max_symbolic_size
      · simp only [IterativeUnion.step, if_neg h1, h2, if_neg, ite_false, if_pos h3]
        exact ⟨Finset.subset_union_left, Finset.union_subset hset hop,
          fun out hout => by simp at hout⟩
      · simp only [IterativeUnion.step, if_neg h1, h2, if_neg, ite_false, if_neg h3]
        exact ⟨Finset.subset_union_left, Finset.union_subset hset hop,
          fun out hout => by simp at hout⟩

lemma attractor_update_subset {att succ basin : SCV V C} (hab : att ⊆ basin) :
    (if colorsOf (succ \ basin) ≠ ∅ then
      minus_colors (att ∪ succ) (colorsOf (succ \ basin))
    else att ∪ succ) ⊆ basin := by
  have key : minus_colors (att ∪ succ) (colorsOf (succ \ basin)) ⊆ basin := by
    intro p hp
    rw [minus_colors, Finset.mem_filter] at hp
    obtain ⟨hmem, hcol⟩ := hp
    rcases Finset.mem_union.mp hmem with ha | hs
    · exact hab ha
    · by_contra hnb
      exact hcol (mem_colorsOf.mpr ⟨p, Finset.mem_sdiff.mpr ⟨hs, hnb⟩, rfl⟩)
  split_ifs with h
  · exact key
  · rw [not_not] at h
    have heq : minus_colors (att ∪ succ) (colorsOf (succ \ basin)) = att ∪ succ := by
      rw [h, minus_colors]
      simp
    rw [← heq]
    exact key

/-- Invariant transfer across `ReachComputation.try_compute` for the
backward-reachability sub-computation of the Xie-Beerel generator. -/
lemma ReachComputation.try_compute_inv (sz : SCV V C → Nat)
    (c : ReachComputation V C) (pivot R : SCV V C)
    (hunit : c.context.graph.unit ⊆ R)
    (hstate : ∀ st ∈ c.state, pivot ⊆ st.set ∧ st.set ⊆ R)
    (houtput : ∀ o ∈ c.output, pivot ⊆ o ∧ o ⊆ R) :
    (∀ B, (c.try_compute sz).1 = .ready B → pivot ⊆ B ∧ B ⊆ R) ∧
    (∀ st ∈ (c.try_compute sz).2.state, pivot ⊆ st.set ∧ st.set ⊆ R) ∧
    (∀ o ∈ (c.try_compute sz).2.output, pivot ⊆ o ∧ o ⊆ R) ∧
    (c.try_compute sz).2.context = c.context := by
  cases hst : c.state with
  | some st =>
    obtain ⟨hpiv, hset⟩ := hstate st (by rw [hst]; rfl)
    have hb := IterativeUnion.step_bounds sz SaturationPredecessors.step
      c.context st R ((satPred_subset_unit _ _).trans hunit) hset
    rcases hi : IterativeUnion.step sz SaturationPredecessors.step c.context st
      with ⟨ir, ist⟩
    rw [hi] at hb
    simp only [ReachComputation.try_compute, hst, hi]
    cases ir with
    | ready out =>
      have hout : out = st.set := hb.2.2 out rfl
      refine ⟨?_, by simp, ?_, by first | rfl | trivial⟩
      · intro B hB
        simp only [Completable.ready.injEq] at hB
        rw [← hB, hout]
        exact ⟨hpiv, hset⟩
      · intro o ho
        simp only [Option.mem_def, Option.some.injEq] at ho
        rw [← ho, hout]
        exact ⟨hpiv, hset⟩
    | working =>
      refine ⟨fun B hB => by simp at hB, ?_, ?_, by first | rfl | trivial⟩
      · intro st2 hst2
        simp only [Option.mem_def, Option.some.injEq] at hst2
        rw [← hst2]
        exact ⟨hpiv.trans hb.1, hb.2.1⟩
      · exact houtput
    | cancelled r =>
      refine ⟨fun B hB => by simp at hB, ?_, ?_, by first | rfl | trivial⟩
      · intro st2 hst2
        simp only [Option.mem_def, Option.some.injEq] at hst2
        rw [← hst2]
        exact ⟨hpiv.trans hb.1, hb.2.1⟩
      · exact houtput
  | none =>
    cases ho : c.output with
    | some o =>
      simp only [ReachComputation.try_compute, hst, ho]
      refine ⟨?_, by simp [hst], ?_, by first | rfl | trivial⟩
      · intro B hB
        simp only [Completable.ready.injEq] at hB
        rw [← hB]
        exact houtput o (by rw [ho]; rfl)
      · rw [← ho]
        exact houtput
    | none =>
      simp only [ReachComputation.try_compute, hst, ho]
      exact ⟨fun B hB => by simp at hB, by simp [hst], by simp [ho], by first | rfl | trivial⟩

/-- Invariant preservation by one Xie-Beerel step, together with the
emission facts: remaining only shrinks, and an emitted attractor is
non-empty, contained in the pre-step remaining set, and disjoint from the
post-step remaining set. -/
lemma xb_step_inv [LinearOrder V] (sz : SCV V C → Nat) (context : AttractorConfig V C)
    (U : SCV V C) (s : XieBeerelState V C) (hs : XBInv context U s) :
    XBInv context U (XieBeerelStep.step sz context s).2 ∧
    (XieBeerelStep.step sz context s).2.remaining ⊆ s.remaining ∧
    (∀ A, (XieBeerelStep.step sz context s).1 = .ready (some A) →
      A ≠ ∅ ∧ A ⊆ s.remaining ∧ A ∩ (XieBeerelStep.step sz context s).2.remaining = ∅) := by
  obtain ⟨hrem, hphase⟩ := hs
  rcases s with ⟨computing, remaining⟩
  dsimp only at hrem hphase ⊢
  cases computing with
  | Idle =>
    by_cases hempty : remaining = ∅
    · simp only [XieBeerelStep.step, if_pos hempty]
      exact ⟨⟨hrem, trivial⟩, subset_rfl, fun A hA => by simp at hA⟩
    · simp only [XieBeerelStep.step, if_neg hempty]
      refine ⟨⟨hrem, ?_, ?_, ?_⟩, subset_rfl, fun A hA => by simp at hA⟩
      · intro st hst
        simp only [BackwardReachability.configure, Option.mem_def,
          Option.some.injEq] at hst
        rw [← hst]
        exact ⟨subset_rfl, pick_vertex_subset remaining⟩
      · intro o ho
        simp only [BackwardReachability.configure, Option.mem_def] at ho
        cases ho
      · simp only [BackwardReachability.configure,
          ReachabilityConfig.restrict_state_space, ReachabilityConfig.fromAttractor,
          SymbolicAsyncGraph.restrict]
        exact Finset.inter_subset_right
  | Basin pivot sub =>
    obtain ⟨hstate, houtput, hunit⟩ := hphase
    have hcore := ReachComputation.try_compute_inv sz sub pivot remaining
      hunit hstate houtput
    rcases htc : ReachComputation.try_compute sz sub with ⟨res, sub2⟩
    rw [htc] at hcore
    simp only [XieBeerelStep.step, htc]
    cases res with
    | ready B =>
      refine ⟨⟨hrem, ?_⟩, subset_rfl, fun A hA => by simp at hA⟩
      exact hcore.1 B rfl
    | working =>
      refine ⟨⟨hrem, hcore.2.1, hcore.2.2.1, ?_⟩, subset_rfl,
        fun A hA => by simp at hA⟩
      rw [hcore.2.2.2]
      exact hunit
    | cancelled r =>
      refine ⟨⟨hrem, hcore.2.1, hcore.2.2.1, ?_⟩, subset_rfl,
        fun A hA => by simp at hA⟩
      rw [hcore.2.2.2]
      exact hunit
  | Attractor basin cfg att =>
    obtain ⟨hab, hbr⟩ := hphase
    by_cases hsubset : SaturationSuccessors.step cfg att ⊆ att
    · by_cases hempty : att = ∅
      · simp only [XieBeerelStep.step, if_pos hsubset, if_pos hempty]
        exact ⟨⟨(Finset.sdiff_subset).trans hrem, trivial⟩, Finset.sdiff_subset,
          fun A hA => by simp at hA⟩
      · simp only [XieBeerelStep.step, if_pos hsubset, if_neg hempty]
        refine ⟨⟨(Finset.sdiff_subset).trans hrem, trivial⟩, Finset.sdiff_subset, ?_⟩
        intro A hA
        simp only [Completable.ready.injEq, Option.some.injEq] at hA
        rw [← hA]
        refine ⟨hempty, hab.trans hbr, ?_⟩
        apply Finset.eq_empty_of_forall_not_mem
        intro x hx
        obtain ⟨hxA, hxr⟩ := Finset.mem_inter.mp hx
        exact (Finset.mem_sdiff.mp hxr).2 (hab hxA)
    · simp only [XieBeerelStep.step, if_neg hsubset]
      refine ⟨⟨hrem, ?_, hbr⟩, subset_rfl, fun A hA => by simp at hA⟩
      exact attractor_update_subset hab

/-- Run-level invariant: starting from any state satisfying `XBInv`, the
emitted attractors are non-empty subsets of the starting remaining set,
pairwise disjoint, and disjoint from the final remaining set, which only
shrinks. -/
lemma xbRun_inv [LinearOrder V] (sz : SCV V C → Nat) (context : AttractorConfig V C)
    (U : SCV V C) :
    ∀ (n : Nat) (s : XieBeerelState V C), XBInv context U s →
    XBInv context U (xbRun sz context n s).2 ∧
    (xbRun sz context n s).2.remaining ⊆ s.remaining ∧
    (∀ A ∈ (xbRun sz context n s).1, A ≠ ∅ ∧ A ⊆ s.remaining ∧
      A ∩ (xbRun sz context n s).2.remaining = ∅) ∧
    (xbRun sz context n s).1.Pairwise (fun A B => A ∩ B = ∅) := by
  intro n
  induction n with
  | zero => intro s hs; exact ⟨hs, subset_rfl, by simp [xbRun], by simp [xbRun]⟩
  | succ k ih =>
    intro s hs
    have hstep := xb_step_inv sz context U s hs
    rcases hst : XieBeerelStep.step sz context s with ⟨res, s1⟩
    rw [hst] at hstep
    obtain ⟨hinv1, hmono1, hemit⟩ := hstep
    cases res with
    | ready ores =>
      cases ores with
      | some A =>
        have hrun : xbRun sz context (k + 1) s =
            (A :: (xbRun sz context k s1).1, (xbRun sz context k s1).2) := by
          simp [xbRun, hst]
        obtain ⟨hA1, hA2, hA3⟩ := hemit A rfl
        obtain ⟨ih1, ih2, ih3, ih4⟩ := ih s1 hinv1
        rw [hrun]
        have hdisj : ∀ T : SCV V C, T ⊆ s1.remaining → A ∩ T = ∅ := by
          intro T hT
          apply Finset.eq_empty_of_forall_not_mem
          intro x hx
          obtain ⟨hx1, hx2⟩ := Finset.mem_inter.mp hx
          have hmem : x ∈ A ∩ s1.remaining := Finset.mem_inter.mpr ⟨hx1, hT hx2⟩
          rw [hA3] at hmem
          exact absurd hmem (Finset.not_mem_empty x)
        refine ⟨ih1, ih2.trans hmono1, ?_, ?_⟩
        · intro B hB
          rcases List.mem_cons.mp hB with rfl | hB'
          · exact ⟨hA1, hA2, hdisj _ ih2⟩
          · obtain ⟨hB1, hB2, hB3⟩ := ih3 B hB'
            exact ⟨hB1, hB2.trans hmono1, hB3⟩
        · rw [List.pairwise_cons]
          exact ⟨fun B hB => hdisj B (ih3 B hB).2.1, ih4⟩
      | none =>
        have hrun : xbRun sz context (k + 1) s = ([], s1) := by simp [xbRun, hst]
        rw [hrun]
        exact ⟨hinv1, hmono1, by simp, by simp⟩
    | working =>
      have hrun : xbRun sz context (k + 1) s = xbRun sz context k s1 := by
        simp [xbRun, hst]
      obtain ⟨ih1, ih2, ih3, ih4⟩ := ih s1 hinv1
      rw [hrun]
      refine ⟨ih1, ih2.trans hmono1, ?_, ih4⟩
      intro A hA
      obtain ⟨a1, a2, a3⟩ := ih3 A hA
      exact ⟨a1, a2.trans hmono1, a3⟩
    | cancelled r =>
      have hrun : xbRun sz context (k + 1) s = ([], s1) := by simp [xbRun, hst]
      rw [hrun]
      exact ⟨hinv1, hmono1, by simp, by simp⟩

/-- C8: in the Attractor phase, one saturation-successors step is applied to
the current attractor: when the new material is a subset of the attractor the
basin is subtracted from remaining, the attractor is emitted iff non-empty
(else `Working`), and the phase returns to `Idle`; otherwise the new material
is unioned in, the colours of `new_material \ B` (when any) are removed, the
remaining set is untouched, and `Working` is returned. -/
theorem xie_beerel_attractor_phase [LinearOrder V] (sz : SCV V C → Nat)
    (context : AttractorConfig V C) (state : XieBeerelState V C)
    (basin : SCV V C) (cfg : ReachabilityConfig V C) (att : SCV V C)
    (h : state.computing = .Attractor basin cfg att) :
    (SaturationSuccessors.step cfg att ⊆ att →
      (XieBeerelStep.step sz context state).2.remaining = state.remaining \ basin ∧
      (XieBeerelStep.step sz context state).2.computing = .Idle ∧
      (att = ∅ → (XieBeerelStep.step sz context state).1 = .working) ∧
      (att ≠ ∅ →
        (XieBeerelStep.step sz context state).1 = .ready (some att))) ∧
    (¬ SaturationSuccessors.step cfg att ⊆ att →
      (XieBeerelStep.step sz context state).1 = .working ∧
      (XieBeerelStep.step sz context state).2.remaining = state.remaining ∧
      (XieBeerelStep.step sz context state).2.computing =
        .Attractor basin cfg
          ((att ∪ SaturationSuccessors.step cfg att).filter
            (fun p => p.2 ∉ colorsOf (SaturationSuccessors.step cfg att \ basin)))) := by
  rcases state with ⟨computing, remaining⟩
  dsimp only at h
  subst h
  constructor
  · intro hsubset
    simp only [XieBeerelStep.step, if_pos hsubset]
    by_cases hempty : att = ∅
    · simp only [if_pos hempty]
      exact ⟨trivial, trivial, fun _ => trivial, fun hne => absurd hempty hne⟩
    · simp only [if_neg hempty]
      exact ⟨trivial, trivial, fun heq => absurd heq hempty, fun _ => trivial⟩
  · intro hsubset
    simp only [XieBeerelStep.step, if_neg hsubset]
    refine ⟨trivial, trivial, ?_⟩
    by_cases hesc : colorsOf (SaturationSuccessors.step cfg att \ basin) ≠ ∅
    · simp only [if_pos hesc]
      rfl
    · simp only [if_neg hesc]
      rw [not_not] at hesc
      have hfe : ((att ∪ SaturationSuccessors.step cfg att).filter
          (fun p => p.2 ∉ colorsOf (SaturationSuccessors.step cfg att \ basin)))
          = att ∪ SaturationSuccessors.step cfg att := by
        rw [hesc]
        simp
      rw [hfe]

def attractorCfgA : AttractorConfig Bool Bool :=
  { graph := twoGraph
    active_variables := Finset.range 1
    max_iterations := 10
    max_symbolic_size := 1000 }

def basinW : SCV Bool Bool := {(false, false), (true, false)}

def attW : SCV Bool Bool := {(false, false)}

def xbAttState : XieBeerelState Bool Bool :=
  { computing := .Attractor basinW (ReachabilityConfig.fromAttractor attractorCfgA) attW
    remaining := Finset.univ }

/-- Witness for C8 on a concrete closed attractor: the basin is subtracted
from remaining and the attractor is emitted. -/
theorem xie_beerel_attractor_phase_witness :
    (XieBeerelStep.step szCard attractorCfgA xbAttState).2.remaining =
      (Finset.univ : SCV Bool Bool) \ basinW ∧
    (XieBeerelStep.step szCard attractorCfgA xbAttState).1 = .ready (some attW) :=
  ⟨((xie_beerel_attractor_phase szCard attractorCfgA xbAttState basinW
      (ReachabilityConfig.fromAttractor attractorCfgA) attW rfl).1 (by decide)).1,
   ((xie_beerel_attractor_phase szCard attractorCfgA xbAttState basinW
      (ReachabilityConfig.fromAttractor attractorCfgA) attW rfl).1 (by decide)).2.2.2
      (by decide)⟩

/-- C10: every attractor emitted by the Xie-Beerel generator is a non-empty
subset of the basin of its round (hence of the initial universe), the basin
is contained in the remaining set of that round and is removed whole from it
on emission; consequently the emitted attractors are pairwise disjoint and
disjoint from the remaining set at every later time. -/
theorem xie_beerel_emission_invariants [LinearOrder V] (sz : SCV V C → Nat)
    (context : AttractorConfig V C) (U : SCV V C) (n : Nat) :
    (∀ A ∈ (xbRun sz context n (XieBeerelState.fromSet U)).1,
      A ≠ ∅ ∧ A ⊆ U ∧
      A ∩ (xbRun sz context n (XieBeerelState.fromSet U)).2.remaining = ∅) ∧
    (xbRun sz context n (XieBeerelState.fromSet U)).1.Pairwise
      (fun A B => A ∩ B = ∅) ∧
    (∀ (s : XieBeerelState V C) (basin : SCV V C) (cfg : ReachabilityConfig V C)
        (att : SCV V C), XBInv context U s → s.computing = .Attractor basin cfg att →
      SaturationSuccessors.step cfg att ⊆ att →
      att ⊆ basin ∧ basin ⊆ s.remaining ∧
      (XieBeerelStep.step sz context s).2.remaining = s.remaining \ basin) := by
  have hinv0 : XBInv context U (XieBeerelState.fromSet U) := ⟨subset_rfl, trivial⟩
  obtain ⟨h1, h2, h3, h4⟩ := xbRun_inv sz context U n _ hinv0
  refine ⟨h3, h4, ?_⟩
  intro s basin cfg att hsinv hcomp hsubset
  obtain ⟨hrem, hphase⟩ := hsinv
  rcases s with ⟨computing, remaining⟩
  dsimp only at hcomp hphase ⊢
  subst hcomp
  obtain ⟨hab, hbr⟩ := hphase
  refine ⟨hab, hbr, ?_⟩
  by_cases hempty : att = ∅
  · simp only [XieBeerelStep.step, if_pos hsubset, if_pos hempty]
  · simp only [XieBeerelStep.step, if_pos hsubset, if_neg hempty]

/-- Witness for C10: a concrete run of the generator, plus the per-round
emission facts at a concrete attractor-phase state. -/
theorem xie_beerel_emission_invariants_witness :
    (xbRun szCard attractorCfgA 6
        (XieBeerelState.fromSet (Finset.univ : SCV Bool Bool))).1.Pairwise
      (fun A B => A ∩ B = ∅) ∧
    (attW ⊆ basinW ∧ basinW ⊆ xbAttState.remaining ∧
      (XieBeerelStep.step szCard attractorCfgA xbAttState).2.remaining =
        xbAttState.remaining \ basinW) :=
  ⟨(xie_beerel_emission_invariants szCard attractorCfgA Finset.univ 6).2.1,
   (xie_beerel_emission_invariants szCard attractorCfgA Finset.univ 0).2.2
      xbAttState basinW (ReachabilityConfig.fromAttractor attractorCfgA) attW
      ⟨by decide, by decide, by decide⟩ rfl (by decide)⟩

end BddScc
